import Mathlib

/-!
Verification of the attestation-channel repository (attestation daemon in
`zymbit_image/scripts/files/attestation_daemon.py` and the producer service in
`7500FastXP/service.py`).

The development shallowly embeds the daemon's byte-level codec (DER-style
two-field container of a UTF8String filename and an OctetString payload),
the exact-length socket reader `recvall`, the key-management functions
`get_signing_key` / `save_private_key` / `save_public_key`, the per-connection
pipeline `handle_file_data` / `handle_connection`, and the daemon loop
`run_server`.  Bytes are `Nat` (< 256 where it matters), byte strings are
`List Nat`, filesystem state is an explicit association of paths to contents
plus the set of existing directories, and the socket is a schedule of the
chunks successive `recv` calls deliver.
-/

set_option maxRecDepth 8000

namespace Attestation

/-! ## Big-endian byte arithmetic -/

/-- Value of a big-endian byte string (`struct.unpack`-style accumulation). -/
def beVal (l : List Nat) : Nat :=
  l.foldl (fun acc b => acc * 256 + b) 0

/-- Minimal big-endian byte representation of `n` (empty for `0`). -/
def beBytes (n : Nat) : List Nat :=
  if h : n = 0 then []
  else beBytes (n / 256) ++ [n % 256]
decreasing_by exact Nat.div_lt_self (Nat.pos_of_ne_zero h) (by omega)

/-- Model of `struct.pack("!I", n)`: the 4-byte big-endian encoding of a 32-bit value. -/
def u32be (n : Nat) : List Nat :=
  [n / 16777216 % 256, n / 65536 % 256, n / 256 % 256, n % 256]

theorem length_u32be (n : Nat) : (u32be n).length = 4 := rfl

theorem beVal_u32be (n : Nat) (h : n < 4294967296) : beVal (u32be n) = n := by
  simp only [beVal, u32be, List.foldl]
  omega

theorem beVal_append_singleton (l : List Nat) (b : Nat) :
    beVal (l ++ [b]) = beVal l * 256 + b := by
  simp [beVal, List.foldl_append]

theorem beVal_beBytes (n : Nat) : beVal (beBytes n) = n := by
  induction n using Nat.strong_induction_on with
  | _ n ih =>
    rw [beBytes]
    by_cases h : n = 0
    · simp [h, beVal]
    · rw [dif_neg h, beVal_append_singleton,
        ih (n / 256) (Nat.div_lt_self (Nat.pos_of_ne_zero h) (by omega))]
      omega

theorem beBytes_ne_nil (n : Nat) (h : n ≠ 0) : beBytes n ≠ [] := by
  rw [beBytes, dif_neg h]
  simp

theorem beBytes_head_ne_zero (n : Nat) (h : n ≠ 0) : (beBytes n).headD 0 ≠ 0 := by
  induction n using Nat.strong_induction_on with
  | _ n ih =>
    rw [beBytes, dif_neg h]
    by_cases h2 : n / 256 = 0
    · rw [h2, beBytes]
      simp only [dite_true, List.nil_append, List.headD_cons]
      omega
    · have hne := beBytes_ne_nil (n / 256) h2
      have := ih (n / 256) (Nat.div_lt_self (Nat.pos_of_ne_zero h) (by omega)) h2
      cases hb : beBytes (n / 256) with
      | nil => exact absurd hb hne
      | cons a t => rw [hb] at this; simpa using this

theorem beBytes_bytes (n : Nat) : ∀ b ∈ beBytes n, b < 256 := by
  induction n using Nat.strong_induction_on with
  | _ n ih =>
    rw [beBytes]
    by_cases h : n = 0
    · simp [h]
    · rw [dif_neg h]
      intro b hb
      rcases List.mem_append.mp hb with h1 | h1
      · exact ih (n / 256) (Nat.div_lt_self (Nat.pos_of_ne_zero h) (by omega)) b h1
      · simp only [List.mem_singleton] at h1
        omega

/-- Inverse of `beVal` on canonical (leading-byte-nonzero) byte strings. -/
theorem beBytes_beVal (l : List Nat) (hne : l ≠ []) (hh : l.headD 0 ≠ 0)
    (hb : ∀ b ∈ l, b < 256) : beBytes (beVal l) = l := by
  induction l using List.reverseRecOn with
  | nil => exact absurd rfl hne
  | append_singleton l b ih =>
    rw [beVal_append_singleton]
    cases l with
    | nil =>
      simp only [beVal, List.foldl_nil, Nat.zero_mul, Nat.zero_add]
      have hb0 : b ≠ 0 := by simpa using hh
      have hb256 : b < 256 := hb b (by simp)
      rw [beBytes, dif_neg hb0]
      rw [Nat.mod_eq_of_lt hb256, Nat.div_eq_of_lt hb256, beBytes]
      simp
    | cons a t =>
      have hh' : (a :: t).headD 0 ≠ 0 := by simpa using hh
      have hb' : ∀ x ∈ a :: t, x < 256 := fun x hx => hb x (List.mem_append_left _ hx)
      have hpos : 0 < beVal (a :: t) := by
        have : a ≠ 0 := by simpa using hh'
        have key : ∀ (t' : List Nat) (acc : Nat),
            acc ≤ List.foldl (fun acc b => acc * 256 + b) acc t' := by
          intro t'
          induction t' with
          | nil => intro acc; simp
          | cons x xs ihx =>
            intro acc
            simp only [List.foldl_cons]
            calc acc ≤ acc * 256 + x := by omega
            _ ≤ _ := ihx (acc * 256 + x)
        have := key t a
        simp only [beVal, List.foldl_cons, Nat.zero_mul, Nat.zero_add]
        omega
      have hbb : b < 256 := hb b (List.mem_append_right _ (by simp))
      have hn0 : beVal (a :: t) * 256 + b ≠ 0 := by omega
      rw [beBytes, dif_neg hn0]
      have hdiv : (beVal (a :: t) * 256 + b) / 256 = beVal (a :: t) := by omega
      have hmod : (beVal (a :: t) * 256 + b) % 256 = b := by omega
      rw [hdiv, hmod, ih (by simp) hh' hb']

/-! ## DER definite-length encoding

`asn1crypto` serializes with distinguished (DER) definite lengths: short form
for lengths below 128, otherwise `0x80 + k` followed by the `k`-byte minimal
big-endian length.  The parser accepts exactly the distinguished form. -/

/-- DER encoding of a length. -/
def derLen (n : Nat) : List Nat :=
  if n < 128 then [n] else (128 + (beBytes n).length) :: beBytes n

/-- Parse a DER length from the head of `l`; returns the length and the rest. -/
def parseDerLen (l : List Nat) : Option (Nat × List Nat) :=
  match l with
  | [] => none
  | b :: rest =>
    if b < 128 then some (b, rest)
    else
      let k := b - 128
      if k = 0 then none
      else if rest.length < k then none
      else
        let lenBytes := rest.take k
        let n := beVal lenBytes
        if lenBytes.headD 0 ≠ 0 ∧ 128 ≤ n then some (n, rest.drop k) else none

theorem parseDerLen_derLen (n : Nat) (rest : List Nat) :
    parseDerLen (derLen n ++ rest) = some (n, rest) := by
  by_cases h : n < 128
  · simp [derLen, parseDerLen, h]
  · have hn0 : n ≠ 0 := by omega
    have hL : (beBytes n).length ≠ 0 := by
      intro hc
      exact beBytes_ne_nil n hn0 (List.length_eq_zero.mp hc)
    rw [derLen, if_neg h]
    simp only [List.cons_append, parseDerLen]
    rw [if_neg (by omega)]
    have hk : 128 + (beBytes n).length - 128 = (beBytes n).length := by omega
    rw [hk, if_neg hL, if_neg (by simp only [List.length_append]; omega)]
    rw [List.take_left, List.drop_left]
    rw [if_pos ⟨beBytes_head_ne_zero n hn0, by rw [beVal_beBytes]; omega⟩]
    rw [beVal_beBytes]

theorem parseDerLen_canon (l : List Nat) (n : Nat) (rest : List Nat)
    (hb : ∀ b ∈ l, b < 256) (h : parseDerLen l = some (n, rest)) :
    l = derLen n ++ rest := by
  match l with
  | [] => simp [parseDerLen] at h
  | b :: r =>
    simp only [parseDerLen] at h
    by_cases hb128 : b < 128
    · rw [if_pos hb128] at h
      injection h with h
      injection h with h1 h2
      subst h1; subst h2
      simp [derLen, hb128]
    · rw [if_neg hb128] at h
      by_cases hk0 : b - 128 = 0
      · rw [if_pos hk0] at h; exact absurd h (by simp)
      · rw [if_neg hk0] at h
        by_cases hshort : r.length < b - 128
        · rw [if_pos hshort] at h; exact absurd h (by simp)
        · rw [if_neg hshort] at h
          by_cases hcond : (r.take (b - 128)).headD 0 ≠ 0 ∧ 128 ≤ beVal (r.take (b - 128))
          · rw [if_pos hcond] at h
            injection h with h
            injection h with h1 h2
            subst h1; subst h2
            have hlen : (r.take (b - 128)).length = b - 128 :=
              List.length_take_of_le (by omega)
            have htk : beBytes (beVal (r.take (b - 128))) = r.take (b - 128) := by
              apply beBytes_beVal
              · intro hc
                rw [hc] at hlen
                simp at hlen
                omega
              · exact hcond.1
              · intro x hx
                exact hb x (List.mem_cons_of_mem _ (List.take_subset _ _ hx))
            rw [derLen, if_neg (by omega), htk, hlen]
            have hbb : b = 128 + (b - 128) := by omega
            rw [List.cons_append, List.take_append_drop]
            exact congrArg (· :: r) hbb.symm ▸ rfl
          · rw [if_neg hcond] at h; exact absurd h (by simp)

/-! ## Strict UTF-8

The `UTF8String` field is the UTF-8 encoding of the filename; Python's strict
UTF-8 codec rejects overlong forms, surrogates and out-of-range values, which
is what the decoder below implements. -/

/-- UTF-8 encoding of one Unicode scalar value. -/
def utf8EncodeChar (c : Char) : List Nat :=
  if c.toNat < 128 then [c.toNat]
  else if c.toNat < 2048 then [192 + c.toNat / 64, 128 + c.toNat % 64]
  else if c.toNat < 65536 then
    [224 + c.toNat / 4096, 128 + c.toNat / 64 % 64, 128 + c.toNat % 64]
  else
    [240 + c.toNat / 262144, 128 + c.toNat / 4096 % 64, 128 + c.toNat / 64 % 64,
      128 + c.toNat % 64]

/-- UTF-8 encoding of a character sequence. -/
def utf8Encode : List Char → List Nat
  | [] => []
  | c :: cs => utf8EncodeChar c ++ utf8Encode cs

/-- Decode one UTF-8 character from the head of the byte string (strict:
   overlong forms, surrogates, values above U+10FFFF, and stray or missing
   continuation bytes are rejected). -/
def utf8DecodeStep : List Nat → Option (Char × List Nat)
  | [] => none
  | b0 :: rest =>
    if b0 < 128 then some (Char.ofNat b0, rest)
    else if b0 < 194 then none
    else if b0 < 224 then
      match rest with
      | b1 :: r =>
        if 128 ≤ b1 ∧ b1 < 192 then
          some (Char.ofNat ((b0 - 192) * 64 + (b1 - 128)), r)
        else none
      | [] => none
    else if b0 < 240 then
      match rest with
      | b1 :: b2 :: r =>
        if (128 ≤ b1 ∧ b1 < 192) ∧ (128 ≤ b2 ∧ b2 < 192) ∧
            (b0 = 224 → 160 ≤ b1) ∧ (b0 = 237 → b1 < 160) then
          some (Char.ofNat ((b0 - 224) * 4096 + (b1 - 128) * 64 + (b2 - 128)), r)
        else none
      | _ => none
    else if b0 < 245 then
      match rest with
      | b1 :: b2 :: b3 :: r =>
        if (128 ≤ b1 ∧ b1 < 192) ∧ (128 ≤ b2 ∧ b2 < 192) ∧ (128 ≤ b3 ∧ b3 < 192) ∧
            (b0 = 240 → 144 ≤ b1) ∧ (b0 = 244 → b1 < 144) then
          some (Char.ofNat ((b0 - 240) * 262144 + (b1 - 128) * 4096 +
            (b2 - 128) * 64 + (b3 - 128)), r)
        else none
      | _ => none
    else none

/-- Fuelled decoding loop; fuel bounded by the byte count suffices because
   each step consumes at least one byte. -/
def utf8DecodeLoop : Nat → List Nat → Option (List Char)
  | _, [] => some []
  | 0, _ :: _ => none
  | fuel + 1, b :: rest =>
    match utf8DecodeStep (b :: rest) with
    | some (c, r) => (utf8DecodeLoop fuel r).map (fun cs => c :: cs)
    | none => none

/-- Strict UTF-8 decoding of a whole byte string. -/
def utf8Decode (l : List Nat) : Option (List Char) := utf8DecodeLoop l.length l

theorem char_toNat_valid (c : Char) :
    c.toNat < 55296 ∨ (57344 ≤ c.toNat ∧ c.toNat < 1114112) := c.valid

theorem char_toNat_ofNat (n : Nat) (h : n < 55296 ∨ (57344 ≤ n ∧ n < 1114112)) :
    (Char.ofNat n).toNat = n := by
  have hv : n.isValidChar := h
  simp only [Char.ofNat, dif_pos hv, Char.ofNatAux, Char.toNat]
  exact BitVec.toNat_ofNatLt _ _

theorem utf8EncodeChar_length_pos (c : Char) : 0 < (utf8EncodeChar c).length := by
  unfold utf8EncodeChar
  split_ifs <;> simp

theorem utf8DecodeStep_encode (c : Char) (l : List Nat) :
    utf8DecodeStep (utf8EncodeChar c ++ l) = some (c, l) := by
  have hv := char_toNat_valid c
  have hofn := Char.ofNat_toNat c
  unfold utf8EncodeChar
  by_cases h1 : c.toNat < 128
  · rw [if_pos h1]
    simp only [List.cons_append, List.nil_append, utf8DecodeStep, if_pos h1, hofn]
  · rw [if_neg h1]
    by_cases h2 : c.toNat < 2048
    · rw [if_pos h2]
      simp only [List.cons_append, List.nil_append, utf8DecodeStep]
      rw [if_neg (by omega), if_neg (by omega), if_pos (by omega), if_pos (by omega)]
      have harith : (192 + c.toNat / 64 - 192) * 64 + (128 + c.toNat % 64 - 128) = c.toNat := by
        omega
      rw [harith, hofn]
    · rw [if_neg h2]
      by_cases h3 : c.toNat < 65536
      · rw [if_pos h3]
        simp only [List.cons_append, List.nil_append, utf8DecodeStep]
        rw [if_neg (by omega), if_neg (by omega), if_neg (by omega), if_pos (by omega),
          if_pos (by omega)]
        have harith : (224 + c.toNat / 4096 - 224) * 4096 +
            (128 + c.toNat / 64 % 64 - 128) * 64 + (128 + c.toNat % 64 - 128) = c.toNat := by
          omega
        rw [harith, hofn]
      · rw [if_neg h3]
        simp only [List.cons_append, List.nil_append, utf8DecodeStep]
        rw [if_neg (by omega), if_neg (by omega), if_neg (by omega), if_neg (by omega),
          if_pos (by omega), if_pos (by omega)]
        have harith : (240 + c.toNat / 262144 - 240) * 262144 +
            (128 + c.toNat / 4096 % 64 - 128) * 4096 +
            (128 + c.toNat / 64 % 64 - 128) * 64 + (128 + c.toNat % 64 - 128) = c.toNat := by
          omega
        rw [harith, hofn]

theorem utf8EncodeChar_one (b0 : Nat) (h1 : b0 < 128) :
    utf8EncodeChar (Char.ofNat b0) = [b0] := by
  have hval := char_toNat_ofNat b0 (by omega)
  rw [utf8EncodeChar, hval, if_pos h1]

theorem utf8EncodeChar_two (b0 b1 : Nat) (h2 : ¬ b0 < 194) (h3 : b0 < 224)
    (h4 : 128 ≤ b1 ∧ b1 < 192) :
    utf8EncodeChar (Char.ofNat ((b0 - 192) * 64 + (b1 - 128))) = [b0, b1] := by
  have hval := char_toNat_ofNat ((b0 - 192) * 64 + (b1 - 128)) (by omega)
  rw [utf8EncodeChar, hval, if_neg (by omega), if_pos (by omega)]
  simp only [List.cons.injEq, and_true]
  omega

theorem utf8EncodeChar_three (b0 b1 b2 : Nat) (h3 : ¬ b0 < 224) (h5 : b0 < 240)
    (h6 : (128 ≤ b1 ∧ b1 < 192) ∧ (128 ≤ b2 ∧ b2 < 192) ∧
      (b0 = 224 → 160 ≤ b1) ∧ (b0 = 237 → b1 < 160)) :
    utf8EncodeChar (Char.ofNat ((b0 - 224) * 4096 + (b1 - 128) * 64 + (b2 - 128))) =
      [b0, b1, b2] := by
  obtain ⟨ha, hb, hc, hd⟩ := h6
  have hval := char_toNat_ofNat ((b0 - 224) * 4096 + (b1 - 128) * 64 + (b2 - 128))
    (by omega)
  rw [utf8EncodeChar, hval, if_neg (by omega), if_neg (by omega), if_pos (by omega)]
  simp only [List.cons.injEq, and_true]
  omega

theorem utf8EncodeChar_four (b0 b1 b2 b3 : Nat) (h5 : ¬ b0 < 240) (h7 : b0 < 245)
    (h8 : (128 ≤ b1 ∧ b1 < 192) ∧ (128 ≤ b2 ∧ b2 < 192) ∧ (128 ≤ b3 ∧ b3 < 192) ∧
      (b0 = 240 → 144 ≤ b1) ∧ (b0 = 244 → b1 < 144)) :
    utf8EncodeChar (Char.ofNat ((b0 - 240) * 262144 + (b1 - 128) * 4096 +
      (b2 - 128) * 64 + (b3 - 128))) = [b0, b1, b2, b3] := by
  obtain ⟨ha, hb, hc, hd, he⟩ := h8
  have hval := char_toNat_ofNat ((b0 - 240) * 262144 + (b1 - 128) * 4096 +
    (b2 - 128) * 64 + (b3 - 128)) (by omega)
  rw [utf8EncodeChar, hval, if_neg (by omega), if_neg (by omega), if_neg (by omega)]
  simp only [List.cons.injEq, and_true]
  omega

theorem utf8DecodeStep_canon (l : List Nat) (c : Char) (r : List Nat)
    (h : utf8DecodeStep l = some (c, r)) : l = utf8EncodeChar c ++ r := by
  match l with
  | [] => simp [utf8DecodeStep] at h
  | [b0] =>
    simp only [utf8DecodeStep] at h
    split_ifs at h with c1 c2 c3 c4 c5 <;>
      simp only [Option.some.injEq, Prod.mk.injEq, reduceCtorEq] at h
    obtain ⟨hc, hr⟩ := h
    subst hc; subst hr
    rw [utf8EncodeChar_one b0 c1]; rfl
  | [b0, b1] =>
    simp only [utf8DecodeStep] at h
    split_ifs at h with c1 c2 c3 c4 c5 c6 <;>
      simp only [Option.some.injEq, Prod.mk.injEq, reduceCtorEq] at h
    · obtain ⟨hc, hr⟩ := h
      subst hc; subst hr
      rw [utf8EncodeChar_one b0 c1]; rfl
    · obtain ⟨hc, hr⟩ := h
      subst hc; subst hr
      rw [utf8EncodeChar_two b0 b1 c2 c3 c4]; rfl
  | [b0, b1, b2] =>
    simp only [utf8DecodeStep] at h
    split_ifs at h with c1 c2 c3 c4 c5 c6 c7 <;>
      simp only [Option.some.injEq, Prod.mk.injEq, reduceCtorEq] at h
    · obtain ⟨hc, hr⟩ := h
      subst hc; subst hr
      rw [utf8EncodeChar_one b0 c1]; rfl
    · obtain ⟨hc, hr⟩ := h
      subst hc; subst hr
      rw [utf8EncodeChar_two b0 b1 c2 c3 c4]; rfl
    · obtain ⟨hc, hr⟩ := h
      subst hc; subst hr
      rw [utf8EncodeChar_three b0 b1 b2 c3 c5 c6]; rfl
  | b0 :: b1 :: b2 :: b3 :: rest =>
    simp only [utf8DecodeStep] at h
    split_ifs at h with c1 c2 c3 c4 c5 c6 c7 c8 <;>
      simp only [Option.some.injEq, Prod.mk.injEq, reduceCtorEq] at h
    · obtain ⟨hc, hr⟩ := h
      subst hc; subst hr
      rw [utf8EncodeChar_one b0 c1]; rfl
    · obtain ⟨hc, hr⟩ := h
      subst hc; subst hr
      rw [utf8EncodeChar_two b0 b1 c2 c3 c4]; rfl
    · obtain ⟨hc, hr⟩ := h
      subst hc; subst hr
      rw [utf8EncodeChar_three b0 b1 b2 c3 c5 c6]; rfl
    · obtain ⟨hc, hr⟩ := h
      subst hc; subst hr
      rw [utf8EncodeChar_four b0 b1 b2 b3 c5 c7 c8]; rfl

theorem utf8DecodeLoop_mono (fuel : Nat) :
    ∀ (l : List Nat), l.length ≤ fuel → utf8DecodeLoop fuel l = utf8Decode l := by
  induction fuel using Nat.strong_induction_on with
  | _ fuel ih =>
    intro l hl
    match l with
    | [] => rw [utf8Decode]; cases fuel <;> rfl
    | b :: rest =>
      obtain ⟨f, rfl⟩ : ∃ f, fuel = f + 1 := ⟨fuel - 1, by simp at hl; omega⟩
      rw [utf8Decode]
      simp only [List.length_cons, utf8DecodeLoop]
      cases hstep : utf8DecodeStep (b :: rest) with
      | none => rfl
      | some p =>
        obtain ⟨c, r⟩ := p
        have hcanon := utf8DecodeStep_canon _ _ _ hstep
        have hlp := utf8EncodeChar_length_pos c
        have hrlen : r.length < rest.length + 1 := by
          have := congrArg List.length hcanon
          simp only [List.length_cons, List.length_append] at this
          omega
        simp only [List.length_cons] at hl
        show Option.map (fun cs => c :: cs) (utf8DecodeLoop f r) =
          Option.map (fun cs => c :: cs) (utf8DecodeLoop rest.length r)
        rw [ih f (by omega) r (by omega), ih rest.length (by omega) r (by omega)]

theorem utf8Decode_encode (cs : List Char) : utf8Decode (utf8Encode cs) = some cs := by
  induction cs with
  | nil => rfl
  | cons c cs ih =>
    rw [utf8Encode]
    have hlp := utf8EncodeChar_length_pos c
    obtain ⟨b, t, hbt⟩ : ∃ b t, utf8EncodeChar c ++ utf8Encode cs = b :: t := by
      cases hL : utf8EncodeChar c ++ utf8Encode cs with
      | nil =>
        have := congrArg List.length hL
        simp only [List.length_append, List.length_nil] at this
        omega
      | cons b t => exact ⟨b, t, rfl⟩
    rw [utf8Decode, hbt]
    simp only [List.length_cons, utf8DecodeLoop]
    rw [← hbt, utf8DecodeStep_encode]
    show Option.map (fun x => c :: x) (utf8DecodeLoop t.length (utf8Encode cs)) =
      some (c :: cs)
    have hlen : (utf8Encode cs).length ≤ t.length := by
      have := congrArg List.length hbt
      simp only [List.length_append, List.length_cons] at this
      omega
    rw [utf8DecodeLoop_mono t.length _ hlen, ih]
    rfl

theorem utf8Encode_decode (l : List Nat) (cs : List Char)
    (h : utf8Decode l = some cs) : utf8Encode cs = l := by
  have key : ∀ (n : Nat) (l : List Nat) (cs : List Char),
      l.length ≤ n → utf8Decode l = some cs → utf8Encode cs = l := by
    intro n
    induction n with
    | zero =>
      intro l cs hl h
      have hnil : l = [] := List.length_eq_zero.mp (by omega)
      subst hnil
      have hcs : cs = [] := by
        rw [utf8Decode] at h
        simp only [List.length_nil, utf8DecodeLoop, Option.some.injEq] at h
        exact h.symm
      subst hcs
      rfl
    | succ n ihn =>
      intro l cs hl h
      match l with
      | [] =>
        have hcs : cs = [] := by
          rw [utf8Decode] at h
          simp only [List.length_nil, utf8DecodeLoop, Option.some.injEq] at h
          exact h.symm
        subst hcs
        rfl
      | b :: rest =>
        rw [utf8Decode] at h
        simp only [List.length_cons, utf8DecodeLoop] at h
        cases hstep : utf8DecodeStep (b :: rest) with
        | none =>
          simp only [hstep] at h
          exact Option.noConfusion h
        | some p =>
          obtain ⟨c, r⟩ := p
          simp only [hstep, Option.map_eq_some'] at h
          obtain ⟨cs', hcs', rfl⟩ := h
          have hcanon := utf8DecodeStep_canon _ _ _ hstep
          have hlp := utf8EncodeChar_length_pos c
          have hrl : r.length ≤ rest.length := by
            have := congrArg List.length hcanon
            simp only [List.length_cons, List.length_append] at this
            omega
          rw [utf8DecodeLoop_mono rest.length r hrl] at hcs'
          simp only [List.length_cons] at hl
          have hrec := ihn r cs' (by omega) hcs'
          rw [utf8Encode, hrec]
          exact hcanon.symm
  exact key l.length l cs le_rfl h

/-! ## The `FileContainer` codec

`FileContainer` is an ASN.1 SEQUENCE with fields `filename : UTF8String`
(tag `0x0C`) and `data : OctetString` (tag `0x04`); the SEQUENCE tag is
`0x30`.  `create_file_container` is `FileContainer({...}).dump()` and
`parse_file_container` is `FileContainer.load` followed by the `.native`
accesses (which perform the strict UTF-8 decoding of the filename). -/

/-- Error taxonomy of the daemon, mirroring §7 of the specification.
`prematureClose` is the `RuntimeError` raised by `recvall`; `malformed` and
`invalidEncoding` are the structural and text-decoding failures of
`parse_file_container`; `storage` is an `OSError` from `open`; `keyLoad` is
the failure to parse an existing private-key file. -/
inductive DaemonErr where
  | prematureClose
  | malformed
  | invalidEncoding
  | storage
  | keyLoad
deriving DecidableEq

/-- The encoded `filename` field: tag, DER length, UTF-8 contents. -/
def fileField (filename : String) : List Nat :=
  12 :: (derLen (utf8Encode filename.data).length ++ utf8Encode filename.data)

/-- The encoded `data` field: tag, DER length, raw octets. -/
def dataField (data : List Nat) : List Nat :=
  4 :: (derLen data.length ++ data)

/-- Embedding of `create_file_container(filename, data)`: the DER record (no length
   prefix — the 4-byte wire prefix is added by the sender, not here). -/
def create_file_container (filename : String) (data : List Nat) : List Nat :=
  48 :: (derLen ((fileField filename).length + (dataField data).length) ++
    (fileField filename ++ dataField data))

/-- Parse one tagged field from the head of `l`: tag byte, DER length `n`,
   then `n` content bytes; returns contents and remainder. -/
def parseField (tag : Nat) (l : List Nat) : Option (List Nat × List Nat) :=
  match l with
  | [] => none
  | t :: rest =>
    if t = tag then
      match parseDerLen rest with
      | some (n, rest1) =>
        if n ≤ rest1.length then some (rest1.take n, rest1.drop n) else none
      | none => none
    else none

/-- Embedding of `parse_file_container(der_bytes)`: strict DER parse of the two-field
   SEQUENCE, then strict UTF-8 decoding of the filename field.  Structural
   failures are `malformed`; text-decoding failures are `invalidEncoding`. -/
def parse_file_container (bs : List Nat) : Except DaemonErr (String × List Nat) :=
  match bs with
  | [] => .error .malformed
  | t :: rest =>
    if t = 48 then
      match parseDerLen rest with
      | some (n, rest1) =>
        if n ≤ rest1.length then
          match parseField 12 (rest1.take n) with
          | some (fbytes, c1) =>
            match parseField 4 c1 with
            | some (dbytes, c2) =>
              if c2 = [] then
                match utf8Decode fbytes with
                | some cs => .ok (String.mk cs, dbytes)
                | none => .error .invalidEncoding
              else .error .malformed
            | none => .error .malformed
          | none => .error .malformed
        else .error .malformed
      | none => .error .malformed
    else .error .malformed

theorem parseField_encode (tag : Nat) (content rest : List Nat) :
    parseField tag ((tag :: (derLen content.length ++ content)) ++ rest) =
      some (content, rest) := by
  simp only [List.cons_append, parseField, if_pos rfl, List.append_assoc,
    parseDerLen_derLen]
  rw [List.take_left' rfl, List.drop_left' rfl]
  simp

theorem parseField_canon (tag : Nat) (l content rest : List Nat)
    (hb : ∀ b ∈ l, b < 256) (h : parseField tag l = some (content, rest)) :
    l = (tag :: (derLen content.length ++ content)) ++ rest := by
  match l with
  | [] => simp [parseField] at h
  | t :: r =>
    simp only [parseField] at h
    by_cases ht : t = tag
    · rw [if_pos ht] at h
      subst ht
      cases hdl : parseDerLen r with
      | none =>
        simp only [hdl] at h
        exact Option.noConfusion h
      | some p =>
        obtain ⟨n, rest1⟩ := p
        simp only [hdl] at h
        by_cases hn : n ≤ rest1.length
        · rw [if_pos hn] at h
          injection h with h
          injection h with h1 h2
          subst h1; subst h2
          have hlen : (rest1.take n).length = n := by
            rw [List.length_take]; omega
          have hcanon := parseDerLen_canon r n rest1
            (fun b hb' => hb b (List.mem_cons_of_mem _ hb')) hdl
          rw [hcanon, hlen, List.cons_append, List.append_assoc, List.take_append_drop]
        · rw [if_neg hn] at h
          exact Option.noConfusion h
    · rw [if_neg ht] at h
      exact Option.noConfusion h

theorem parse_create_file_container (filename : String) (data : List Nat)
    (rest : List Nat) :
    parse_file_container (create_file_container filename data ++ rest) =
      .ok (filename, data) := by
  simp only [create_file_container, List.cons_append, parse_file_container]
  rw [List.append_assoc]
  simp only [parseDerLen_derLen, if_true]
  have h1 : (fileField filename).length + (dataField data).length ≤
      (fileField filename ++ dataField data ++ rest).length := by
    simp only [List.length_append]
    omega
  rw [if_pos h1]
  have hLen : (fileField filename ++ dataField data).length =
      (fileField filename).length + (dataField data).length := List.length_append _ _
  rw [List.take_left' hLen]
  rw [fileField]
  simp only [parseField_encode]
  have hde := parseField_encode 4 data []
  rw [List.append_nil] at hde
  rw [dataField]
  simp only [hde, if_pos rfl, utf8Decode_encode, if_true]

theorem parse_file_container_canon (bs : List Nat) (f : String) (d : List Nat)
    (hb : ∀ b ∈ bs, b < 256) (h : parse_file_container bs = .ok (f, d)) :
    ∃ rest, bs = create_file_container f d ++ rest := by
  match bs with
  | [] => simp [parse_file_container] at h
  | t :: r =>
    simp only [parse_file_container] at h
    by_cases ht : t = 48
    case neg =>
      rw [if_neg ht] at h
      exact Except.noConfusion h
    rw [if_pos ht] at h
    subst ht
    cases hdl : parseDerLen r with
    | none =>
      simp only [hdl] at h
      exact Except.noConfusion h
    | some p =>
      obtain ⟨n, rest1⟩ := p
      simp only [hdl] at h
      by_cases hn : n ≤ rest1.length
      case neg =>
        rw [if_neg hn] at h
        exact Except.noConfusion h
      rw [if_pos hn] at h
      cases hf : parseField 12 (rest1.take n) with
      | none =>
        simp only [hf] at h
        exact Except.noConfusion h
      | some pf =>
        obtain ⟨fbytes, c1⟩ := pf
        simp only [hf] at h
        cases hd2 : parseField 4 c1 with
        | none =>
          simp only [hd2] at h
          exact Except.noConfusion h
        | some pd =>
          obtain ⟨dbytes, c2⟩ := pd
          simp only [hd2] at h
          by_cases hc2 : c2 = []
          case neg =>
            rw [if_neg hc2] at h
            exact Except.noConfusion h
          rw [if_pos hc2] at h
          subst hc2
          cases hu : utf8Decode fbytes with
          | none =>
            simp only [hu] at h
            exact Except.noConfusion h
          | some cs =>
            simp only [hu] at h
            injection h with h
            injection h with h1 h2
            subst h1; subst h2
            have hbr : ∀ b ∈ r, b < 256 := fun b hx => hb b (List.mem_cons_of_mem _ hx)
            have hcanon1 := parseDerLen_canon r n rest1 hbr hdl
            have hbrest1 : ∀ b ∈ rest1, b < 256 := by
              intro b hx
              exact hbr b (hcanon1 ▸ List.mem_append_right _ hx)
            have hbtake : ∀ b ∈ rest1.take n, b < 256 :=
              fun b hx => hbrest1 b (List.take_subset _ _ hx)
            have hcanon2 := parseField_canon 12 (rest1.take n) fbytes c1 hbtake hf
            have hbc1 : ∀ b ∈ c1, b < 256 := by
              intro b hx
              exact hbtake b (hcanon2 ▸ List.mem_append_right _ hx)
            have hcanon3 := parseField_canon 4 c1 dbytes [] hbc1 hd2
            rw [List.append_nil] at hcanon3
            have hfb : utf8Encode cs = fbytes := utf8Encode_decode fbytes cs hu
            have hfF : fileField (String.mk cs) = 12 :: (derLen fbytes.length ++ fbytes) := by
              show 12 :: (derLen (utf8Encode cs).length ++ utf8Encode cs) = _
              rw [hfb]
            have hdF : dataField dbytes = 4 :: (derLen dbytes.length ++ dbytes) := rfl
            have hlen_take : (rest1.take n).length = n := by
              rw [List.length_take]
              omega
            have hn_eq : n = (fileField (String.mk cs)).length + (dataField dbytes).length := by
              have e1 := congrArg List.length hcanon2
              rw [hlen_take, hcanon3] at e1
              rw [hfF, hdF]
              simp only [List.length_cons, List.length_append] at e1 ⊢
              omega
            refine ⟨rest1.drop n, ?_⟩
            calc 48 :: r
                = 48 :: (derLen n ++ rest1) := by rw [hcanon1]
              _ = 48 :: (derLen n ++ (rest1.take n ++ rest1.drop n)) := by
                  rw [List.take_append_drop]
              _ = 48 :: (derLen n ++
                    ((fileField (String.mk cs) ++ dataField dbytes) ++ rest1.drop n)) := by
                  rw [hcanon2, hcanon3, hfF, hdF]
              _ = create_file_container (String.mk cs) dbytes ++ rest1.drop n := by
                  rw [create_file_container, ← hn_eq]
                  simp [List.cons_append, List.append_assoc]

/-! ## base64 (`base64.b64encode`) -/

/-- The base64 alphabet, as ASCII codes. -/
def b64Char (n : Nat) : Nat :=
  if n < 26 then 65 + n
  else if n < 52 then 97 + (n - 26)
  else if n < 62 then 48 + (n - 52)
  else if n = 62 then 43
  else 47

/-- Model of `base64.b64encode`: standard base64 with `=` (ASCII 61) padding. -/
def base64Encode : List Nat → List Nat
  | [] => []
  | [a] => [b64Char (a / 4), b64Char (a % 4 * 16), 61, 61]
  | [a, b] => [b64Char (a / 4), b64Char (a % 4 * 16 + b / 16), b64Char (b % 16 * 4), 61]
  | a :: b :: c :: rest =>
    b64Char (a / 4) :: b64Char (a % 4 * 16 + b / 16) :: b64Char (b % 16 * 4 + c / 64) ::
      b64Char (c % 64) :: base64Encode rest

/-! ## Filesystem model

A path is its list of components (`os.path.join base name` is `base ++ [name]`).
The state records which directories exist and an association of file paths to
contents; a later write shadows an earlier one (`lookupFile` finds the most
recent entry). -/

/-- A filesystem path, as components. -/
abbrev FPath := List String

/-- Filesystem state: existing directories and written files (most recent
   entry first). -/
structure FS where
  dirs : List FPath
  files : List (FPath × List Nat)
deriving DecidableEq

/-- Contents of the most recent write to `p`, if any (`os.path.exists` for
   files is `(lookupFile fs p).isSome`). -/
def lookupFile : List (FPath × List Nat) → FPath → Option (List Nat)
  | [], _ => none
  | (q, c) :: rest, p => if q = p then some c else lookupFile rest p

/-- Every nonempty ancestor of `p`, including `p` itself. -/
def ancestorDirs (p : FPath) : List FPath :=
  (List.range p.length).map (fun k => p.take (k + 1))

/-- Model of `os.makedirs(p, exist_ok=True)`: `p` and its ancestors now exist. -/
def makedirs (fs : FS) (p : FPath) : FS :=
  { fs with dirs := ancestorDirs p ++ fs.dirs }

/-- Model of `open(p, "wb").write(contents)`: fails (`OSError`) unless the parent
   directory exists; otherwise records the new file contents. -/
def openWrite (fs : FS) (p : FPath) (contents : List Nat) : Except DaemonErr FS :=
  if p.dropLast ∈ fs.dirs then .ok { fs with files := (p, contents) :: fs.files }
  else .error .storage

/-- Model of `os.remove p`. -/
def removeFile (fs : FS) (p : FPath) : FS :=
  { fs with files := fs.files.filter (fun e => decide (e.1 ≠ p)) }

theorem makedirs_self_mem (fs : FS) (p : FPath) (hp : p ≠ []) :
    p ∈ (makedirs fs p).dirs := by
  have hlen : 0 < p.length := List.length_pos.mpr hp
  have hmem : p ∈ ancestorDirs p := by
    simp only [ancestorDirs, List.mem_map, List.mem_range]
    refine ⟨p.length - 1, by omega, ?_⟩
    have heq : p.length - 1 + 1 = p.length := by omega
    rw [heq]
    exact List.take_length p
  simp only [makedirs, List.mem_append]
  exact Or.inl hmem

theorem lookupFile_removeFile_ne (files : List (FPath × List Nat)) (p q : FPath)
    (h : q ≠ p) :
    lookupFile (files.filter (fun e => decide (e.1 ≠ p))) q = lookupFile files q := by
  induction files with
  | nil => rfl
  | cons e rest ih =>
    obtain ⟨ep, ec⟩ := e
    by_cases hep : ep = p
    · subst hep
      rw [List.filter_cons_of_neg (by simp)]
      rw [ih, lookupFile, if_neg (fun hc => h hc.symm)]
    · rw [List.filter_cons_of_pos (by simpa using hep)]
      simp only [lookupFile, ih]

/-! ## Fixed configuration paths -/

/-- Path `/tmp/org.causality.attestation`. -/
def SOCKET_PATH : FPath := ["tmp", "org.causality.attestation"]

/-- Path `/var/lib/attestation_results`. -/
def OUTPUT_BASE_DIR : FPath := ["var", "lib", "attestation_results"]

/-- Path `/var/lib/pcr_attestation_keys/signing_key.pem`. -/
def SIGNING_KEY_PATH : FPath := ["var", "lib", "pcr_attestation_keys", "signing_key.pem"]

/-! ## Key management

The Ed25519 key itself is opaque key material (its 32-byte seed, modelled as
a byte list).  The external `cryptography` library's PEM (de)serialization is
modelled abstractly by an injective tagged serialization whose parser returns
`none` on anything that is not a serialized Ed25519 private key; the claims
about `get_signing_key` depend only on this contract. -/

/-- Opaque Ed25519 private-key material. -/
abbrev Key := List Nat

/-- Model of `private_bytes(PEM, PKCS8, NoEncryption)` (injective, tagged). -/
def serializePrivateKey (k : Key) : List Nat := 80 :: k

/-- Model of `load_pem_private_key` followed by the `Ed25519PrivateKey`
   instance check: inverts `serializePrivateKey`, fails on anything else. -/
def loadPemPrivateKey : List Nat → Option Key
  | 80 :: k => some k
  | _ => none

/-- Model of `public_key().public_bytes(PEM, SubjectPublicKeyInfo)`. -/
def serializePublicKey (k : Key) : List Nat := 81 :: k

/-- Embedding of `save_private_key`: writes the PEM private key at `key_path` directly —
   no `makedirs` — so it fails if the parent directory does not exist. -/
def save_private_key (fs : FS) (k : Key) (key_path : FPath) : Except DaemonErr FS :=
  openWrite fs key_path (serializePrivateKey k)

/-- Embedding of `save_public_key`: `os.makedirs(output_dir, exist_ok=True)` then write
   `output_dir/signing_key.pub.pem`. -/
def save_public_key (fs : FS) (pub : List Nat) (output_dir : FPath) : Except DaemonErr FS :=
  openWrite (makedirs fs output_dir) (output_dir ++ ["signing_key.pub.pem"]) pub

/-- Embedding of `get_signing_key`: load the key at `key_path` if the file exists (failing
   with the daemon's key-load error if it does not parse as an Ed25519
   private key), otherwise generate `fresh`, persist it, and publish the
   public key under `OUTPUT_BASE_DIR`. -/
def get_signing_key (fresh : Key) (fs : FS) (key_path : FPath) :
    Except DaemonErr (Key × FS) :=
  match lookupFile fs.files key_path with
  | some contents =>
    match loadPemPrivateKey contents with
    | some k => .ok (k, fs)
    | none => .error .keyLoad
  | none =>
    match save_private_key fs fresh key_path with
    | .error e => .error e
    | .ok fs1 =>
      match save_public_key fs1 (serializePublicKey fresh) OUTPUT_BASE_DIR with
      | .error e => .error e
      | .ok fs2 => .ok (fresh, fs2)

/-! ## Socket reading

`recv(n)` returns between 1 and `n` bytes, or the empty string when the peer
has closed; a connection is modelled by the schedule of chunks successive
`recv` calls would deliver (an empty chunk, or exhaustion of the schedule,
is a closed peer).  `recvall` accumulates partial reads until it holds
exactly `count` bytes, raising on premature close. -/

/-- The bytes the peer delivers before closing. -/
def availBytes : List (List Nat) → List Nat
  | [] => []
  | chunk :: rest => if chunk = [] then [] else chunk ++ availBytes rest

/-- The accumulation loop of `recvall` (`buf` is the already-read prefix);
   a chunk longer than the remaining need is truncated by `recv`, the
   unread remainder staying available. -/
def recvallAux : List (List Nat) → Nat → List Nat →
    Except DaemonErr (List Nat × List (List Nat))
  | chunks, 0, buf => .ok (buf, chunks)
  | [], _ + 1, _ => .error .prematureClose
  | chunk :: rest, need + 1, buf =>
    if chunk.length = 0 then .error .prematureClose
    else if chunk.length ≤ need + 1 then
      recvallAux rest (need + 1 - chunk.length) (buf ++ chunk)
    else .ok (buf ++ chunk.take (need + 1), chunk.drop (need + 1) :: rest)

/-- Embedding of `recvall(sock, count)`: exactly `count` bytes, or a premature-close
   failure. -/
def recvall (chunks : List (List Nat)) (count : Nat) :
    Except DaemonErr (List Nat × List (List Nat)) :=
  recvallAux chunks count []

theorem recvallAux_spec (chunks : List (List Nat)) :
    ∀ (need : Nat) (buf : List Nat),
      (need ≤ (availBytes chunks).length →
        ∃ left, recvallAux chunks need buf =
            .ok (buf ++ (availBytes chunks).take need, left) ∧
          availBytes left = (availBytes chunks).drop need) ∧
      ((availBytes chunks).length < need →
        recvallAux chunks need buf = .error .prematureClose) := by
  induction chunks with
  | nil =>
    intro need buf
    match need with
    | 0 =>
      refine ⟨fun _ => ⟨[], ?_, rfl⟩, fun h => by simp [availBytes] at h⟩
      simp [recvallAux, availBytes]
    | m + 1 =>
      refine ⟨fun h => ?_, fun _ => rfl⟩
      simp [availBytes] at h
  | cons chunk rest ih =>
    intro need buf
    match need with
    | 0 =>
      refine ⟨fun _ => ⟨chunk :: rest, ?_, by simp⟩, fun h => by omega⟩
      simp [recvallAux]
    | m + 1 =>
      by_cases hc : chunk = []
      · subst hc
        have hav : availBytes ([] :: rest) = [] := by simp [availBytes]
        refine ⟨fun h => ?_, fun _ => ?_⟩
        · rw [hav] at h
          simp at h
        · simp [recvallAux]
      · have hav : availBytes (chunk :: rest) = chunk ++ availBytes rest := by
          rw [availBytes, if_neg hc]
        have hclen : 0 < chunk.length := List.length_pos.mpr hc
        refine ⟨fun h => ?_, fun h => ?_⟩
        · rw [hav] at h ⊢
          rw [List.length_append] at h
          simp only [recvallAux]
          rw [if_neg (by omega : ¬ chunk.length = 0)]
          by_cases hle : chunk.length ≤ m + 1
          · rw [if_pos hle]
            obtain ⟨left, h1, h2⟩ := (ih (m + 1 - chunk.length) (buf ++ chunk)).1 (by omega)
            refine ⟨left, ?_, ?_⟩
            · rw [h1, List.take_append_eq_append_take, List.take_of_length_le hle,
                List.append_assoc]
            · rw [h2, List.drop_append_eq_append_drop, List.drop_eq_nil_of_le hle,
                List.nil_append]
          · rw [if_neg hle]
            refine ⟨chunk.drop (m + 1) :: rest, ?_, ?_⟩
            · rw [List.take_append_eq_append_take,
                (by omega : m + 1 - chunk.length = 0), List.take_zero, List.append_nil]
            · have hne : chunk.drop (m + 1) ≠ [] := by
                intro hcd
                have := congrArg List.length hcd
                simp only [List.length_drop, List.length_nil] at this
                omega
              rw [availBytes, if_neg hne, List.drop_append_eq_append_drop,
                (by omega : m + 1 - chunk.length = 0), List.drop_zero]
        · rw [hav, List.length_append] at h
          simp only [recvallAux]
          rw [if_neg (by omega : ¬ chunk.length = 0), if_pos (by omega : chunk.length ≤ m + 1)]
          exact (ih (m + 1 - chunk.length) (buf ++ chunk)).2 (by omega)

/-- Specification of `recvall`: it succeeds with exactly the first `count` bytes the peer delivers
   whenever that many arrive before the close, the unread remainder staying
   available, and fails with the premature-close error otherwise. -/
theorem recvall_spec (chunks : List (List Nat)) (count : Nat) :
    (count ≤ (availBytes chunks).length →
      ∃ left, recvall chunks count = .ok ((availBytes chunks).take count, left) ∧
        availBytes left = (availBytes chunks).drop count) ∧
    ((availBytes chunks).length < count →
      recvall chunks count = .error .prematureClose) := by
  have h := recvallAux_spec chunks count []
  simpa only [recvall, List.nil_append] using h

/-! ## The daemon pipeline

`handle_file_data` is parameterized by the pure Ed25519 signing function
`sign` (deterministic in key and message; its internals are irrelevant to the
claims), by the timestamp `str(int(time.time()))` observed for this
connection, and by the schedule of chunks the connected socket delivers. -/

/-- Observable startup / loop events of the daemon, for ordering claims. -/
inductive Ev where
  | removeStale
  | loadKey
  | bindSock
  | listen
  | accept
  | closeConn
deriving DecidableEq, BEq

/-- Embedding of `handle_file_data(conn, output_base_dir, signing_key)`: read the 4-byte
   big-endian length, read that many record bytes, parse the container,
   create the timestamped receipt directory, write the file, sign the
   in-memory payload with `sign`, and write the base64 signature next to it. -/
def handle_file_data (sign : Key → List Nat → List Nat) (key : Key)
    (output_base_dir : FPath) (timestamp : Nat) (chunks : List (List Nat))
    (fs : FS) : Except DaemonErr FS :=
  match recvall chunks 4 with
  | .error e => .error e
  | .ok (length_bytes, chunks1) =>
    match recvall chunks1 (beVal length_bytes) with
    | .error e => .error e
    | .ok (der_data, _) =>
      match parse_file_container der_data with
      | .error e => .error e
      | .ok (filename, file_data) =>
        let output_dir := output_base_dir ++ [Nat.repr timestamp]
        let fs1 := makedirs fs output_dir
        match openWrite fs1 (output_dir ++ [filename]) file_data with
        | .error e => .error e
        | .ok fs2 =>
          match openWrite fs2 (output_dir ++ [filename ++ ".sig"])
              (base64Encode (sign key file_data)) with
          | .error e => .error e
          | .ok fs3 => .ok fs3

/-- Embedding of `handle_connection`: run `handle_file_data`, catch every exception at
   this boundary (logging it), and close the connection on success and
   failure alike (`finally`). -/
def handle_connection (sign : Key → List Nat → List Nat) (key : Key)
    (output_base_dir : FPath) (timestamp : Nat) (chunks : List (List Nat))
    (fs : FS) : FS × List Ev :=
  match handle_file_data sign key output_base_dir timestamp chunks fs with
  | .ok fs1 => (fs1, [Ev.closeConn])
  | .error _ => (fs, [Ev.closeConn])

/-- The `Bound → Accepting` loop: accept each connection in order and
   dispatch it synchronously to `handle_connection`. -/
def accept_loop (sign : Key → List Nat → List Nat) (key : Key)
    (output_base_dir : FPath) : List (Nat × List (List Nat)) → FS → FS × List Ev
  | [], fs => (fs, [])
  | (ts, chunks) :: conns, fs =>
    let r1 := handle_connection sign key output_base_dir ts chunks fs
    let r2 := accept_loop sign key output_base_dir conns r1.1
    (r2.1, Ev.accept :: (r1.2 ++ r2.2))

/-- Embedding of `run_server`: remove any stale socket, load or create the signing key,
   bind and listen, then run the accept loop over the incoming connections
   (each with the timestamp at which it is processed); on interrupt, close
   and remove the socket.  A startup failure propagates (the daemon exits)
   before the socket is bound and before any connection is accepted. -/
def run_server (sign : Key → List Nat → List Nat) (fresh : Key)
    (conns : List (Nat × List (List Nat))) (fs : FS) :
    Except DaemonErr FS × List Ev :=
  let staleEvs := if (lookupFile fs.files SOCKET_PATH).isSome then [Ev.removeStale] else []
  let fs0 := if (lookupFile fs.files SOCKET_PATH).isSome then removeFile fs SOCKET_PATH else fs
  match get_signing_key fresh fs0 SIGNING_KEY_PATH with
  | .error e => (.error e, staleEvs)
  | .ok (key, fs1) =>
    let fs2 : FS := { fs1 with files := (SOCKET_PATH, []) :: fs1.files }
    let r := accept_loop sign key OUTPUT_BASE_DIR conns fs2
    (.ok (removeFile r.1 SOCKET_PATH),
      staleEvs ++ [Ev.loadKey, Ev.bindSock, Ev.listen] ++ r.2)

theorem handle_file_data_delivers (sign : Key → List Nat → List Nat) (key : Key)
    (base : FPath) (ts : Nat) (chunks : List (List Nat)) (fs : FS)
    (m : List Nat) (filename : String) (data : List Nat)
    (h1 : availBytes chunks = u32be m.length ++ m)
    (h2 : m.length < 4294967296)
    (h3 : parse_file_container m = .ok (filename, data)) :
    handle_file_data sign key base ts chunks fs =
      .ok { dirs := ancestorDirs (base ++ [Nat.repr ts]) ++ fs.dirs,
            files := ((base ++ [Nat.repr ts]) ++ [filename ++ ".sig"],
                base64Encode (sign key data)) ::
              ((base ++ [Nat.repr ts]) ++ [filename], data) :: fs.files } := by
  have hlen4 : (4 : Nat) ≤ (availBytes chunks).length := by
    rw [h1, List.length_append, length_u32be]
    omega
  obtain ⟨left1, hr1, hl1⟩ := (recvall_spec chunks 4).1 hlen4
  have htake : (availBytes chunks).take 4 = u32be m.length := by
    rw [h1]
    exact List.take_left' (length_u32be _)
  have hdropm : availBytes left1 = m := by
    rw [hl1, h1]
    exact List.drop_left' (length_u32be _)
  obtain ⟨left2, hr2, hl2⟩ := (recvall_spec left1 (beVal (u32be m.length))).1
    (by rw [beVal_u32be _ h2, hdropm])
  have htake2 : (availBytes left1).take (beVal (u32be m.length)) = m := by
    rw [beVal_u32be _ h2, hdropm]
    exact List.take_length m
  rw [htake] at hr1
  rw [htake2] at hr2
  simp only [handle_file_data, hr1, hr2, h3]
  have hXne : base ++ [Nat.repr ts] ≠ [] := by simp
  have hmem : (base ++ [Nat.repr ts] ++ [filename]).dropLast ∈
      (makedirs fs (base ++ [Nat.repr ts])).dirs := by
    rw [List.dropLast_concat]
    exact makedirs_self_mem fs _ hXne
  have how1 : openWrite (makedirs fs (base ++ [Nat.repr ts]))
      (base ++ [Nat.repr ts] ++ [filename]) data =
      .ok { dirs := ancestorDirs (base ++ [Nat.repr ts]) ++ fs.dirs,
            files := ((base ++ [Nat.repr ts]) ++ [filename], data) :: fs.files } := by
    rw [openWrite, if_pos hmem]
    rfl
  have hmem2 : (base ++ [Nat.repr ts] ++ [filename ++ ".sig"]).dropLast ∈
      (ancestorDirs (base ++ [Nat.repr ts]) ++ fs.dirs) := by
    rw [List.dropLast_concat]
    exact makedirs_self_mem fs _ hXne
  have how2 : openWrite
      { dirs := ancestorDirs (base ++ [Nat.repr ts]) ++ fs.dirs,
        files := ((base ++ [Nat.repr ts]) ++ [filename], data) :: fs.files }
      (base ++ [Nat.repr ts] ++ [filename ++ ".sig"])
      (base64Encode (sign key data)) =
      .ok { dirs := ancestorDirs (base ++ [Nat.repr ts]) ++ fs.dirs,
            files := ((base ++ [Nat.repr ts]) ++ [filename ++ ".sig"],
                base64Encode (sign key data)) ::
              ((base ++ [Nat.repr ts]) ++ [filename], data) :: fs.files } := by
    rw [openWrite, if_pos hmem2]
  simp only [how1, how2]

/-! ## Claim theorems -/

/-- C2: for every `(filename, data)` pair where `filename` is valid text and
`data` is an arbitrary byte sequence (including the empty one), decoding the
encoding returns the pair unchanged:
`parse_file_container (create_file_container filename data) = ok (filename, data)`. -/
theorem claim_C2_roundtrip (filename : String) (data : List Nat)
    (hd : ∀ b ∈ data, b < 256) :
    parse_file_container (create_file_container filename data) =
      .ok (filename, data) := by
  have h := parse_create_file_container filename data []
  rwa [List.append_nil] at h

theorem claim_C2_roundtrip_witness :
    parse_file_container (create_file_container "hi" [104, 0]) = .ok ("hi", [104, 0]) :=
  claim_C2_roundtrip "hi" [104, 0] (by decide)

/-- C3 (counterexample): `create_file_container` does NOT return the complete
wire message (length prefix + record); at `("a", [])` its output differs from
the prefixed message, because it returns the DER record alone. -/
theorem claim_C3_counterexample :
    create_file_container "a" [] ≠
      u32be (create_file_container "a" []).length ++ create_file_container "a" [] := by
  intro h
  have hl := congrArg List.length h
  rw [List.length_append, length_u32be] at hl
  omega

/-- The complete wire message as the sender (`XPFileMonitorService.main`,
`service.py` lines 114–119) builds it:
`struct.pack("!I", len(record)) + record`. -/
def xp_build_message (filename : String) (data : List Nat) : List Nat :=
  u32be (create_file_container filename data).length ++
    create_file_container filename data

/-- C3 (amended): `create_file_container` returns the structured record
alone; the complete wire message — the 4-byte unsigned big-endian length
prefix followed by the record — is assembled by the sender
(`XPFileMonitorService.main`), whose first 4 bytes decode to the record
length and whose remainder is exactly the record. -/
theorem claim_C3_amended (filename : String) (data : List Nat)
    (h : (create_file_container filename data).length < 4294967296) :
    xp_build_message filename data =
      u32be (create_file_container filename data).length ++
        create_file_container filename data ∧
    beVal ((xp_build_message filename data).take 4) =
      (create_file_container filename data).length ∧
    (xp_build_message filename data).drop 4 = create_file_container filename data := by
  refine ⟨rfl, ?_, ?_⟩
  · rw [xp_build_message, List.take_left' (length_u32be _), beVal_u32be _ h]
  · rw [xp_build_message, List.drop_left' (length_u32be _)]

theorem claim_C3_amended_witness :
    beVal ((xp_build_message "a" []).take 4) = (create_file_container "a" []).length ∧
    (xp_build_message "a" []).drop 4 = create_file_container "a" [] :=
  ⟨(claim_C3_amended "a" [] (by decide)).2.1, (claim_C3_amended "a" [] (by decide)).2.2⟩

/-- C5: `recvall` (used by `handle_file_data` for both the 4-byte length
prefix and the N-byte record) accumulates partial reads until exactly the
requested number of bytes is obtained — returning exactly the first `count`
bytes the peer delivers — and fails with the premature-close error if the
peer closes before that many bytes arrive. -/
theorem claim_C5_recvall_exact (chunks : List (List Nat)) (count : Nat) :
    (count ≤ (availBytes chunks).length →
      ∃ left, recvall chunks count = .ok ((availBytes chunks).take count, left) ∧
        availBytes left = (availBytes chunks).drop count) ∧
    ((availBytes chunks).length < count →
      recvall chunks count = .error .prematureClose) :=
  recvall_spec chunks count

theorem claim_C5_recvall_exact_witness :
    recvall [[1, 2], [3], []] 5 = .error .prematureClose :=
  (claim_C5_recvall_exact [[1, 2], [3], []] 5).2 (by decide)

/-- C9: `parse_file_container` never returns a `(filename, data)` pair on
malformed input — whenever it succeeds on a byte string, that string begins
with exactly the DER encoding of the returned pair (so absent, truncated, or
wrongly-typed structures, and filename fields that are not valid UTF-8, are
all rejected; structural failures yield the malformed error and text-decoding
failures the invalid-encoding error by construction of the parser). -/
theorem claim_C9_parse_sound (bs : List Nat) (f : String) (d : List Nat)
    (hb : ∀ b ∈ bs, b < 256)
    (h : parse_file_container bs = .ok (f, d)) :
    ∃ rest, bs = create_file_container f d ++ rest :=
  parse_file_container_canon bs f d hb h

theorem claim_C9_parse_sound_witness :
    ∃ rest, create_file_container "a" [7] = create_file_container "a" [7] ++ rest :=
  claim_C9_parse_sound (create_file_container "a" [7]) "a" [7] (by decide)
    (by have h := parse_create_file_container "a" [7] []
        rwa [List.append_nil] at h)

/-- C6: a second `get_signing_key` against the same path, after a first call
generated and persisted a key there, returns exactly the persisted key
material and leaves the filesystem unchanged — in particular no public key
file is (re)written by the second or any subsequent load. -/
theorem claim_C6_key_idempotent (fs : FS) (k1 k2 : Key)
    (habs : lookupFile fs.files SIGNING_KEY_PATH = none)
    (hdir : SIGNING_KEY_PATH.dropLast ∈ fs.dirs) :
    ∃ fs1, get_signing_key k1 fs SIGNING_KEY_PATH = .ok (k1, fs1) ∧
      get_signing_key k2 fs1 SIGNING_KEY_PATH = .ok (k1, fs1) := by
  have h1 : save_private_key fs k1 SIGNING_KEY_PATH =
      .ok { fs with files := (SIGNING_KEY_PATH, serializePrivateKey k1) :: fs.files } := by
    rw [save_private_key, openWrite, if_pos hdir]
  have hm : (OUTPUT_BASE_DIR ++ ["signing_key.pub.pem"]).dropLast ∈
      (makedirs { fs with files := (SIGNING_KEY_PATH, serializePrivateKey k1) :: fs.files }
        OUTPUT_BASE_DIR).dirs := by
    rw [List.dropLast_concat]
    exact makedirs_self_mem _ _ (by simp [OUTPUT_BASE_DIR])
  have h2 : save_public_key
      { fs with files := (SIGNING_KEY_PATH, serializePrivateKey k1) :: fs.files }
      (serializePublicKey k1) OUTPUT_BASE_DIR =
      .ok { dirs := ancestorDirs OUTPUT_BASE_DIR ++ fs.dirs,
            files := (OUTPUT_BASE_DIR ++ ["signing_key.pub.pem"], serializePublicKey k1) ::
              (SIGNING_KEY_PATH, serializePrivateKey k1) :: fs.files } := by
    rw [save_public_key, openWrite, if_pos hm]
    rfl
  refine ⟨⟨ancestorDirs OUTPUT_BASE_DIR ++ fs.dirs,
    (OUTPUT_BASE_DIR ++ ["signing_key.pub.pem"], serializePublicKey k1) ::
      (SIGNING_KEY_PATH, serializePrivateKey k1) :: fs.files⟩, ?_, ?_⟩
  · simp only [get_signing_key, habs, h1, h2]
  · have hlook : lookupFile
        ((OUTPUT_BASE_DIR ++ ["signing_key.pub.pem"], serializePublicKey k1) ::
          (SIGNING_KEY_PATH, serializePrivateKey k1) :: fs.files) SIGNING_KEY_PATH =
        some (serializePrivateKey k1) := by
      simp only [lookupFile]
      rw [if_neg (by decide)]
      simp
    simp only [get_signing_key, hlook]
    simp only [serializePrivateKey, loadPemPrivateKey]

theorem claim_C6_key_idempotent_witness :
    ∃ fs1, get_signing_key [7] ⟨[["var", "lib", "pcr_attestation_keys"]], []⟩
        SIGNING_KEY_PATH = .ok ([7], fs1) ∧
      get_signing_key [9] fs1 SIGNING_KEY_PATH = .ok ([7], fs1) :=
  claim_C6_key_idempotent ⟨[["var", "lib", "pcr_attestation_keys"]], []⟩ [7] [9]
    rfl (by decide)

theorem lookupFile_removeSock (fs : FS) (p : FPath) (hne : p ≠ SOCKET_PATH) :
    lookupFile (removeFile fs SOCKET_PATH).files p = lookupFile fs.files p :=
  lookupFile_removeFile_ne fs.files SOCKET_PATH p hne

/-- C7: if a file exists at the key path but does not parse as an Ed25519
private key, `get_signing_key` fails with the key-load error; `run_server`
propagates this failure (the daemon exits), so the daemon never listens on
and never accepts from the socket — the signing identity is initialized
before the accept loop starts. -/
theorem claim_C7_keyload_fatal (fs : FS) (fresh : Key) (c : List Nat)
    (sign : Key → List Nat → List Nat) (conns : List (Nat × List (List Nat)))
    (hex : lookupFile fs.files SIGNING_KEY_PATH = some c)
    (hbad : loadPemPrivateKey c = none) :
    get_signing_key fresh fs SIGNING_KEY_PATH = .error .keyLoad ∧
    (run_server sign fresh conns fs).1 = .error .keyLoad ∧
    Ev.accept ∉ (run_server sign fresh conns fs).2 ∧
    Ev.listen ∉ (run_server sign fresh conns fs).2 := by
  have hkey : ∀ (fsx : FS), lookupFile fsx.files SIGNING_KEY_PATH = some c →
      get_signing_key fresh fsx SIGNING_KEY_PATH = .error .keyLoad := by
    intro fsx hx
    simp only [get_signing_key, hx, hbad]
  have hget : get_signing_key fresh
      (if (lookupFile fs.files SOCKET_PATH).isSome then removeFile fs SOCKET_PATH else fs)
      SIGNING_KEY_PATH = .error .keyLoad := by
    by_cases hc : (lookupFile fs.files SOCKET_PATH).isSome
    · rw [if_pos hc]
      exact hkey _ ((lookupFile_removeSock fs SIGNING_KEY_PATH (by decide)).trans hex)
    · rw [if_neg hc]
      exact hkey fs hex
  refine ⟨hkey fs hex, ?_, ?_, ?_⟩ <;> simp only [run_server, hget] <;>
    by_cases hc : (lookupFile fs.files SOCKET_PATH).isSome <;> simp [hc]

theorem claim_C7_keyload_fatal_witness :
    get_signing_key [5] ⟨[], [(SIGNING_KEY_PATH, [9])]⟩ SIGNING_KEY_PATH =
        .error .keyLoad ∧
    (run_server (fun k d => k ++ d) [5] [] ⟨[], [(SIGNING_KEY_PATH, [9])]⟩).1 =
        .error .keyLoad ∧
    Ev.accept ∉ (run_server (fun k d => k ++ d) [5] [] ⟨[], [(SIGNING_KEY_PATH, [9])]⟩).2 ∧
    Ev.listen ∉ (run_server (fun k d => k ++ d) [5] [] ⟨[], [(SIGNING_KEY_PATH, [9])]⟩).2 :=
  claim_C7_keyload_fatal ⟨[], [(SIGNING_KEY_PATH, [9])]⟩ [5] [9] (fun k d => k ++ d) []
    (by decide) (by decide)

/-- C10: `save_private_key` opens the fixed key path directly without
creating its parent directory (unlike `save_public_key`, which always
succeeds because it runs `makedirs` first), so on a first run whose key-path
parent is missing `get_signing_key` raises and the daemon exits before
binding the socket or accepting any connection. -/
theorem claim_C10_missing_parent (fs : FS) (fresh : Key)
    (sign : Key → List Nat → List Nat) (conns : List (Nat × List (List Nat)))
    (habs : lookupFile fs.files SIGNING_KEY_PATH = none)
    (hnod : SIGNING_KEY_PATH.dropLast ∉ fs.dirs) :
    get_signing_key fresh fs SIGNING_KEY_PATH = .error .storage ∧
    (∀ (fsx : FS) (pub : List Nat),
      ∃ fsy, save_public_key fsx pub OUTPUT_BASE_DIR = .ok fsy) ∧
    (run_server sign fresh conns fs).1 = .error .storage ∧
    Ev.bindSock ∉ (run_server sign fresh conns fs).2 ∧
    Ev.accept ∉ (run_server sign fresh conns fs).2 := by
  have hkey : ∀ (fsx : FS), lookupFile fsx.files SIGNING_KEY_PATH = none →
      SIGNING_KEY_PATH.dropLast ∉ fsx.dirs →
      get_signing_key fresh fsx SIGNING_KEY_PATH = .error .storage := by
    intro fsx hx hd
    simp only [get_signing_key, hx, save_private_key, openWrite, if_neg hd]
  have hget : get_signing_key fresh
      (if (lookupFile fs.files SOCKET_PATH).isSome then removeFile fs SOCKET_PATH else fs)
      SIGNING_KEY_PATH = .error .storage := by
    by_cases hc : (lookupFile fs.files SOCKET_PATH).isSome
    · rw [if_pos hc]
      exact hkey _ ((lookupFile_removeSock fs SIGNING_KEY_PATH (by decide)).trans habs) hnod
    · rw [if_neg hc]
      exact hkey fs habs hnod
  refine ⟨hkey fs habs hnod, ?_, ?_, ?_, ?_⟩
  · intro fsx pub
    have hm : (OUTPUT_BASE_DIR ++ ["signing_key.pub.pem"]).dropLast ∈
        (makedirs fsx OUTPUT_BASE_DIR).dirs := by
      rw [List.dropLast_concat]
      exact makedirs_self_mem _ _ (by simp [OUTPUT_BASE_DIR])
    exact ⟨_, by rw [save_public_key, openWrite, if_pos hm]⟩
  all_goals simp only [run_server, hget] <;>
    by_cases hc : (lookupFile fs.files SOCKET_PATH).isSome <;> simp [hc]

theorem claim_C10_missing_parent_witness :
    get_signing_key [5] ⟨[], []⟩ SIGNING_KEY_PATH = .error .storage ∧
    (∀ (fsx : FS) (pub : List Nat),
      ∃ fsy, save_public_key fsx pub OUTPUT_BASE_DIR = .ok fsy) ∧
    (run_server (fun k d => k ++ d) [5] [] ⟨[], []⟩).1 = .error .storage ∧
    Ev.bindSock ∉ (run_server (fun k d => k ++ d) [5] [] ⟨[], []⟩).2 ∧
    Ev.accept ∉ (run_server (fun k d => k ++ d) [5] [] ⟨[], []⟩).2 :=
  claim_C10_missing_parent ⟨[], []⟩ [5] (fun k d => k ++ d) [] rfl (by decide)

/-- C8 (counterexample): the claimed startup order "remove stale endpoint,
then create and bind, then load the signing identity" is false: at a state
with a stale socket and a loadable key, the actual trace is
`[removeStale, loadKey, bindSock, listen]` — the identity is loaded strictly
before the endpoint is bound. -/
theorem claim_C8_counterexample :
    (run_server (fun k d => k ++ d) [5] []
        ⟨[], [(SOCKET_PATH, []), (SIGNING_KEY_PATH, serializePrivateKey [7])]⟩).2 =
      [Ev.removeStale, Ev.loadKey, Ev.bindSock, Ev.listen] ∧
    ((run_server (fun k d => k ++ d) [5] []
        ⟨[], [(SOCKET_PATH, []), (SIGNING_KEY_PATH, serializePrivateKey [7])]⟩).2.indexOf
        Ev.loadKey <
      (run_server (fun k d => k ++ d) [5] []
        ⟨[], [(SOCKET_PATH, []), (SIGNING_KEY_PATH, serializePrivateKey [7])]⟩).2.indexOf
        Ev.bindSock) := by
  constructor <;> decide

/-- C8 (amended): in the Uninitialized-to-Bound startup transition the stale
rendezvous endpoint is removed first, then the signing identity is loaded or
created, and only then is the new endpoint created, bound and listened on. -/
theorem claim_C8_amended (sign : Key → List Nat → List Nat) (fresh : Key)
    (conns : List (Nat × List (List Nat))) (fs : FS) (k : Key) (fs1 : FS)
    (hstale : (lookupFile fs.files SOCKET_PATH).isSome = true)
    (hload : get_signing_key fresh (removeFile fs SOCKET_PATH) SIGNING_KEY_PATH =
      .ok (k, fs1)) :
    ∃ evs, (run_server sign fresh conns fs).2 =
      [Ev.removeStale, Ev.loadKey, Ev.bindSock, Ev.listen] ++ evs := by
  refine ⟨(accept_loop sign k OUTPUT_BASE_DIR conns
    ⟨fs1.dirs, (SOCKET_PATH, []) :: fs1.files⟩).2, ?_⟩
  simp only [run_server, if_pos hstale, hload]
  rfl

theorem claim_C8_amended_witness :
    ∃ evs, (run_server (fun k d => k ++ d) [5] []
        ⟨[], [(SOCKET_PATH, []), (SIGNING_KEY_PATH, serializePrivateKey [7])]⟩).2 =
      [Ev.removeStale, Ev.loadKey, Ev.bindSock, Ev.listen] ++ evs :=
  claim_C8_amended (fun k d => k ++ d) [5] []
    ⟨[], [(SOCKET_PATH, []), (SIGNING_KEY_PATH, serializePrivateKey [7])]⟩ [7]
    ⟨[], [(SIGNING_KEY_PATH, serializePrivateKey [7])]⟩ (by decide) rfl

/-- C1: for every connection whose wire message decodes to
`(filename, data)`, the signature file written at
`receipt_dir/(filename ++ ".sig")` contains exactly the base64 encoding of
the signature produced by the signing function over the exact decoded
in-memory payload bytes — for an arbitrary (Ed25519) signing function, so no
hashing or truncation is applied by the caller before signing. -/
theorem claim_C1_signature_file (sign : Key → List Nat → List Nat) (key : Key)
    (base : FPath) (ts : Nat) (chunks : List (List Nat)) (fs : FS)
    (m : List Nat) (filename : String) (data : List Nat)
    (h1 : availBytes chunks = u32be m.length ++ m)
    (h2 : m.length < 4294967296)
    (h3 : parse_file_container m = .ok (filename, data)) :
    ∃ fs', handle_file_data sign key base ts chunks fs = .ok fs' ∧
      lookupFile fs'.files ((base ++ [Nat.repr ts]) ++ [filename ++ ".sig"]) =
        some (base64Encode (sign key data)) := by
  refine ⟨_, handle_file_data_delivers sign key base ts chunks fs m filename data
    h1 h2 h3, ?_⟩
  simp [lookupFile]

theorem claim_C1_signature_file_witness :
    ∃ fs', handle_file_data (fun k d => k ++ d) [1] OUTPUT_BASE_DIR 0
        [xp_build_message "a" [98]] ⟨[], []⟩ = .ok fs' ∧
      lookupFile fs'.files ((OUTPUT_BASE_DIR ++ [Nat.repr 0]) ++ ["a" ++ ".sig"]) =
        some (base64Encode ((fun k d => k ++ d) [1] [98])) :=
  claim_C1_signature_file (fun k d => k ++ d) [1] OUTPUT_BASE_DIR 0
    [xp_build_message "a" [98]] ⟨[], []⟩ (create_file_container "a" [98]) "a" [98]
    (by decide) (by decide)
    (by have h := parse_create_file_container "a" [98] []
        rwa [List.append_nil] at h)

/-- C4: every per-connection failure is caught at the `handle_connection`
boundary and the connection is closed on success and failure alike, so no
error from one connection terminates the accept loop: after ANY first
connection (truncated, malformed, or otherwise), a subsequent well-formed
connection is still accepted and fully processed — its file and signature
are written — and both connections are closed. -/
theorem claim_C4_isolation (sign : Key → List Nat → List Nat) (key : Key)
    (base : FPath) (t1 : Nat) (s1 : List (List Nat)) (t2 : Nat)
    (s2 : List (List Nat)) (fs : FS) (m : List Nat) (filename : String)
    (data : List Nat)
    (h1 : availBytes s2 = u32be m.length ++ m)
    (h2 : m.length < 4294967296)
    (h3 : parse_file_container m = .ok (filename, data)) :
    (accept_loop sign key base [(t1, s1), (t2, s2)] fs).2 =
      [Ev.accept, Ev.closeConn, Ev.accept, Ev.closeConn] ∧
    lookupFile (accept_loop sign key base [(t1, s1), (t2, s2)] fs).1.files
      ((base ++ [Nat.repr t2]) ++ [filename]) = some data ∧
    lookupFile (accept_loop sign key base [(t1, s1), (t2, s2)] fs).1.files
      ((base ++ [Nat.repr t2]) ++ [filename ++ ".sig"]) =
      some (base64Encode (sign key data)) := by
  have hevs1 : (handle_connection sign key base t1 s1 fs).2 = [Ev.closeConn] := by
    rw [handle_connection]
    cases handle_file_data sign key base t1 s1 fs <;> rfl
  have hd := handle_file_data_delivers sign key base t2 s2
    (handle_connection sign key base t1 s1 fs).1 m filename data h1 h2 h3
  have hc2 : handle_connection sign key base t2 s2
      (handle_connection sign key base t1 s1 fs).1 =
      ({ dirs := ancestorDirs (base ++ [Nat.repr t2]) ++
            (handle_connection sign key base t1 s1 fs).1.dirs,
         files := ((base ++ [Nat.repr t2]) ++ [filename ++ ".sig"],
              base64Encode (sign key data)) ::
            ((base ++ [Nat.repr t2]) ++ [filename], data) ::
            (handle_connection sign key base t1 s1 fs).1.files },
        [Ev.closeConn]) := by
    rw [handle_connection, hd]
  have hne : ((base ++ [Nat.repr t2]) ++ [filename ++ ".sig"] : FPath) ≠
      (base ++ [Nat.repr t2]) ++ [filename] := by
    intro hcontra
    have h4 := List.append_cancel_left hcontra
    injection h4 with h5
    have h6 := congrArg String.length h5
    rw [String.length_append] at h6
    have h7 : (".sig" : String).length = 4 := rfl
    omega
  simp only [accept_loop, hevs1, hc2]
  refine ⟨rfl, ?_, ?_⟩
  · simp only [lookupFile, if_neg hne]
    simp
  · simp [lookupFile]

theorem claim_C4_isolation_witness :
    (accept_loop (fun k d => k ++ d) [1] OUTPUT_BASE_DIR
        [(0, [[0, 0, 0, 100], [1, 2], []]), (1, [xp_build_message "a" [98]])]
        ⟨[], []⟩).2 = [Ev.accept, Ev.closeConn, Ev.accept, Ev.closeConn] ∧
    lookupFile (accept_loop (fun k d => k ++ d) [1] OUTPUT_BASE_DIR
        [(0, [[0, 0, 0, 100], [1, 2], []]), (1, [xp_build_message "a" [98]])]
        ⟨[], []⟩).1.files ((OUTPUT_BASE_DIR ++ [Nat.repr 1]) ++ ["a"]) = some [98] ∧
    lookupFile (accept_loop (fun k d => k ++ d) [1] OUTPUT_BASE_DIR
        [(0, [[0, 0, 0, 100], [1, 2], []]), (1, [xp_build_message "a" [98]])]
        ⟨[], []⟩).1.files ((OUTPUT_BASE_DIR ++ [Nat.repr 1]) ++ ["a" ++ ".sig"]) =
      some (base64Encode ((fun k d => k ++ d) [1] [98])) :=
  claim_C4_isolation (fun k d => k ++ d) [1] OUTPUT_BASE_DIR 0
    [[0, 0, 0, 100], [1, 2], []] 1 [xp_build_message "a" [98]] ⟨[], []⟩
    (create_file_container "a" [98]) "a" [98] (by decide) (by decide)
    (by have h := parse_create_file_container "a" [98] []
        rwa [List.append_nil] at h)

end Attestation
